import Mathlib

/-!
Verification development for the RedoneTradeBot repository.

Shallow embedding of the candle store (utils.py, data_handler.py), the
order/position manager (orders.py), the risk sizing module (risk.py) and the
backtest metrics aggregation (backtester.py), together with theorems settling
the specification's claims about them.

Conventions: timestamps are integers (milliseconds), prices and quantities
are rationals; a Python `deque` with `maxlen` is a `List` (oldest first)
plus an explicit bound; Python exceptions are explicit (`Option`/`Except`
or an `exn` result constructor); per-symbol dicts are association lists in
insertion order, as Python dicts iterate.
-/

/-- One OHLCV candle (the cleaned dict built in data_handler.py: keys
timestamp/open/high/low/close/volume). `open` is a Lean keyword, hence
`open_`. -/
structure Candle where
  timestamp : ℤ
  open_ : ℚ
  high : ℚ
  low : ℚ
  close : ℚ
  volume : ℚ
deriving DecidableEq, Repr

/-- utils.py:123-132 `validate_candle`: `l <= o <= h and l <= c <= h and
v >= 0` (the `isinstance` checks always hold in the embedding, where all
fields are numeric; the KeyError branch cannot arise because `Candle` always
has all six fields). -/
def validate_candle (c : Candle) : Bool :=
  decide (c.low ≤ c.open_) && decide (c.open_ ≤ c.high) &&
  decide (c.low ≤ c.close) && decide (c.close ≤ c.high) &&
  decide (0 ≤ c.volume)

/-- Scan loop of `add_candle_uniquely` (utils.py:111-117), walking the deque
from oldest to newest. `full` records whether the underlying bounded deque is
at its `maxlen` (Python's `deque.insert` raises `IndexError` on a deque that
is already at maximum size). Result: `none` models that `IndexError`;
`some none` means the loop fell through without returning (the caller then
appends); `some (some l)` is the deque after an update-in-place
(`existing.update(new_candle)` overwrites all six keys, i.e. replaces the
entry) or after a positional insert. -/
def acu_scan (full : Bool) (new_candle : Candle) : List Candle → Option (Option (List Candle))
  | [] => some none
  | existing :: rest =>
    if existing.timestamp = new_candle.timestamp then
      some (some (new_candle :: rest))
    else if new_candle.timestamp < existing.timestamp then
      (if full then none else some (some (new_candle :: existing :: rest)))
    else
      match acu_scan full new_candle rest with
      | none => none
      | some none => some none
      | some (some l) => some (some (existing :: l))

/-- utils.py:109-121 `add_candle_uniquely(candle_deque, new_candle,
interval_minutes)`. `maxlen` is the `maxlen` of the Python deque
(`global_data.candle_limit`); the `interval_minutes` argument computes
`interval_ms` which the Python function never uses, so it is omitted.
`none` models the `IndexError` raised by `deque.insert` on a full deque
(the deque is left unchanged by that failed insert). Appending to a full
bounded deque silently discards the leftmost entry, modelled by the `drop`;
the explicit `if len(candle_deque) > 50: popleft()` then runs on the append
path only. -/
def add_candle_uniquely (maxlen : ℕ) (candle_deque : List Candle) (new_candle : Candle) :
    Option (List Candle) :=
  match acu_scan (decide (maxlen ≤ candle_deque.length)) new_candle candle_deque with
  | none => none
  | some (some l) => some l
  | some none =>
    let appended := (candle_deque ++ [new_candle]).drop (candle_deque.length + 1 - maxlen)
    some (if 50 < appended.length then appended.drop 1 else appended)

/-- data_handler.py:241-258, the per-candle body of
`BybitWebSocketManager._process_kline` for one confirmed candle: validation,
the 3-interval staleness gate against the last stored timestamp, then
`add_candle_uniquely`. An `IndexError` escaping `add_candle_uniquely` aborts
the message's processing with the deque unchanged, modelled by `getD dq`. -/
def process_kline_candle (maxlen interval : ℕ) (dq : List Candle) (c : Candle) : List Candle :=
  if validate_candle c then
    match dq.getLast? with
    | some lastC =>
      if c.timestamp < lastC.timestamp - 3 * ((interval : ℤ) * 60 * 1000) then dq
      else (add_candle_uniquely maxlen dq c).getD dq
    | none => (add_candle_uniquely maxlen dq c).getD dq
  else dq

/-- The stored-series invariant: strictly ascending timestamps (which also
rules out duplicate timestamps). -/
def StrictAsc (l : List Candle) : Prop :=
  l.Pairwise (fun a b => a.timestamp < b.timestamp)

instance : DecidablePred StrictAsc := fun l =>
  inferInstanceAs (Decidable (l.Pairwise _))

/-- Comparison key of `sorted(..., key=lambda x: x['timestamp'])`
(data_handler.py:130). -/
def candle_le (a b : Candle) : Prop := a.timestamp ≤ b.timestamp

instance : DecidableRel candle_le := fun a b =>
  inferInstanceAs (Decidable (a.timestamp ≤ b.timestamp))

instance : IsTotal Candle candle_le := ⟨fun a b => le_total a.timestamp b.timestamp⟩

instance : IsTrans Candle candle_le := ⟨fun _ _ _ hab hbc => le_trans hab hbc⟩

/-- One page of the exchange kline endpoint, `response['result']['list']`
already converted row-by-row (`timestamp=int(item[0])`, `open=float(item[1])`,
…). `retCode` is the response's return code. -/
structure KlineResponse where
  retCode : ℤ
  list : List Candle
deriving Repr

/-- Paging loop of `get_historical_data` (data_handler.py:84-126). Every
request carries `limit=1000`; `source` maps the request's `start` parameter
to the response (symbol, interval and `end` are fixed for one call and folded
into `source`). Each page drops its trailing element (`[:-1]`, the still-open
candle) and keeps only rows passing `validate_candle`. `none` models the
early `return []` on `retCode != 0`. The loop pages forward from
`last_row_timestamp + 1` while a page (after the drop) still has ≥ 1000 rows;
`fuel` bounds the recursion, exhaustion returning what was collected. -/
def ghd_loop (source : Option ℤ → KlineResponse) :
    ℕ → Option ℤ → List Candle → Option (List Candle)
  | 0, _, data => some data
  | fuel + 1, start_time, data =>
    if (source start_time).retCode ≠ 0 then none
    else
      let candles := (source start_time).list.dropLast
      let validated := candles.filter (fun c => validate_candle c)
      if candles.length < 1000 then some (data ++ validated)
      else
        match candles.getLast? with
        | some lastRow => ghd_loop source fuel (some (lastRow.timestamp + 1)) (data ++ validated)
        | none => some (data ++ validated)

/-- All validated rows collected by one `get_historical_data` call (`data` at
data_handler.py:128), or `none` for the `retCode != 0` early return. -/
def ghd_collect (source : Option ℤ → KlineResponse) (fuel : ℕ) (start_time : Option ℤ) :
    Option (List Candle) :=
  ghd_loop source fuel start_time []

/-- Python dict assignment keyed by timestamp: an existing key keeps its
(first-insertion) position and gets the new value; a new key is appended. -/
def dict_upsert (acc : List Candle) (c : Candle) : List Candle :=
  if acc.any (fun e => decide (e.timestamp = c.timestamp)) then
    acc.map (fun e => if e.timestamp = c.timestamp then c else e)
  else acc ++ [c]

/-- data_handler.py:129 `unique_data = {c['timestamp']: c for c in data}`
followed by `.values()`: deduplication by timestamp, the later occurrence
winning. -/
def dedup_keep_last (data : List Candle) : List Candle :=
  data.foldl dict_upsert []

/-- data_handler.py:77-131 `get_historical_data`: page the source, then
de-duplicate by timestamp, sort ascending by timestamp and keep the last
`limit` entries (`sorted_data[-limit:]`; a Python slice `[-0:]` is the whole
list, hence the `limit = 0` branch). -/
def get_historical_data (source : Option ℤ → KlineResponse) (fuel limit : ℕ)
    (start_time : Option ℤ) : List Candle :=
  match ghd_collect source fuel start_time with
  | none => []
  | some data =>
    let sorted_data := List.insertionSort candle_le (dedup_keep_last data)
    if limit = 0 then sorted_data else sorted_data.drop (sorted_data.length - limit)

/-- Position side (`pos['side']`). -/
inductive Side
  | long
  | short
deriving DecidableEq, Repr

/-- One entry of `global_data.positions` (orders.py:48):
`{'side', 'entry', 'size', 'sl', 'tp', 'pnl'}`. -/
structure Position where
  side : Side
  entry : ℚ
  size : ℚ
  sl : Option ℚ
  tp : Option ℚ
  pnl : ℚ
deriving DecidableEq, Repr

/-- The position ledger `global_data.positions`: a Python dict keyed by
symbol, modelled as an association list in insertion order with unique
keys. -/
abbrev Ledger := List (String × Position)

/-- The mutable order-manager state: the ledger plus
`global_data.current_balance`. -/
structure OrdState where
  positions : Ledger
  current_balance : ℚ
deriving DecidableEq, Repr

/-- `global_data.mode`. -/
inductive Mode
  | backtest
  | paper
  | live
deriving DecidableEq, Repr

/-- The `config['defaults']` entries orders.py reads. -/
structure OrdCfg where
  max_positions : ℕ
  slippage_pct : ℚ
  fee_rate : ℚ
deriving Repr

/-- Outcome of a Python call: `return True`, `return False`, or an escaping
exception. -/
inductive PyResult
  | retTrue
  | retFalse
  | exn (msg : String)
deriving DecidableEq, Repr

def PyResult.ofBool : Bool → PyResult
  | true => .retTrue
  | false => .retFalse

/-- Python truthiness of the fetched reference price (`if not price:`), where
both `None` and `0`/`0.0` are falsy. -/
def price_truthy : Option ℚ → Bool
  | none => false
  | some p => !decide (p = 0)

/-- orders.py:7-12 `apply_simulation_adjustments` (minus the `time.sleep`
latency, which has no observable effect on state): slippage in the
unfavorable direction by side. -/
def apply_simulation_adjustments (slippage : ℚ) (price : ℚ) (side : String) : ℚ :=
  if side = "Buy" ∨ side = "long" then price * (1 + slippage) else price * (1 - slippage)

/-- orders.py:37-52 `open_long`. `price` models `get_market_price(symbol)`;
`live_result` the outcome of `place_smart_order` in non-backtest modes (which
never touches the local ledger or balance). In backtest mode control reaches
`current_balance -= fee` (orders.py:47), which raises `UnboundLocalError`:
the augmented assignment makes `current_balance` a local name of the
function (there is no `global` declaration in orders.py), and it is read
before any local binding exists. That exception is raised before
`positions[symbol] = ...`, so both ledger and balance are returned
unchanged. -/
def open_long (cfg : OrdCfg) (mode : Mode) (price : Option ℚ) (live_result : Bool)
    (st : OrdState) (_symbol : String) (_amount : ℚ) (_sl _tp : Option ℚ) :
    PyResult × OrdState :=
  if cfg.max_positions ≤ st.positions.length then (.retFalse, st)
  else if price_truthy price = false then (.retFalse, st)
  else
    match mode with
    | .backtest => (.exn "UnboundLocalError: current_balance", st)
    | _ => (.ofBool live_result, st)

/-- orders.py:54-69 `open_short`: same control flow as `open_long` with the
`Sell` side; in backtest mode it raises at `current_balance -= fee`
(orders.py:64) exactly as `open_long` does. -/
def open_short (cfg : OrdCfg) (mode : Mode) (price : Option ℚ) (live_result : Bool)
    (st : OrdState) (_symbol : String) (_amount : ℚ) (_sl _tp : Option ℚ) :
    PyResult × OrdState :=
  if cfg.max_positions ≤ st.positions.length then (.retFalse, st)
  else if price_truthy price = false then (.retFalse, st)
  else
    match mode with
    | .backtest => (.exn "UnboundLocalError: current_balance", st)
    | _ => (.ofBool live_result, st)

/-- orders.py:71-87 `close_long`. A missing position or a non-long side
returns `True` untouched (`if not pos or pos['side'] != 'long'`). Otherwise,
in backtest mode control reaches `current_balance += pnl - fee`
(orders.py:82), which raises `UnboundLocalError` (same scoping slip as in
`open_long`) before `del positions[symbol]`, so the position survives and
the state is unchanged; in live/paper mode `close_position` is called, which
does not touch the local ledger. -/
def close_long (_cfg : OrdCfg) (mode : Mode) (price : Option ℚ) (live_result : Bool)
    (st : OrdState) (symbol : String) : PyResult × OrdState :=
  match st.positions.lookup symbol with
  | none => (.retTrue, st)
  | some pos =>
    if pos.side ≠ Side.long then (.retTrue, st)
    else if price_truthy price = false then (.retFalse, st)
    else
      match mode with
      | .backtest => (.exn "UnboundLocalError: current_balance", st)
      | _ => (.ofBool live_result, st)

/-- orders.py:89-105 `close_short`, symmetric to `close_long` (the raise is
at orders.py:100). -/
def close_short (_cfg : OrdCfg) (mode : Mode) (price : Option ℚ) (live_result : Bool)
    (st : OrdState) (symbol : String) : PyResult × OrdState :=
  match st.positions.lookup symbol with
  | none => (.retTrue, st)
  | some pos =>
    if pos.side ≠ Side.short then (.retTrue, st)
    else if price_truthy price = false then (.retFalse, st)
    else
      match mode with
      | .backtest => (.exn "UnboundLocalError: current_balance", st)
      | _ => (.ofBool live_result, st)

/-- risk.py:5-14 `get_position_size`. `pos_pnl s` models
`get_position_info(s).get('pnl', 0)`; `if symbol:` is Python truthiness, so
an empty-string symbol skips the PnL adjustment like `None` does. The
`method == 'flat'` branch is `value / price if price else 0`, guarding the
division by the truthiness of `price`. -/
def get_position_size (current_balance : ℚ) (pos_pnl : String → ℚ)
    (method : String) (value : ℚ) (symbol : Option String) (price : ℚ) : ℚ :=
  let balance := match symbol with
    | some s => if s = "" then current_balance else current_balance + pos_pnl s
    | none => current_balance
  if method = "percent" then balance * (value / 100)
  else if method = "flat" then (if price = 0 then 0 else value / price)
  else 0

/-- The per-symbol view built by `simulate_time_step` (backtester.py:12-22):
`{'symbol': ..., 'candles_by_tf': ...}`, the candle series keyed by
timeframe string. -/
structure MarketView where
  candles_by_tf : List (String × List Candle)
deriving Repr

/-- backtester.py:42-55, the SL/TP scan of `simulate_time_step` over
`list(positions.keys())`. The guard reads
`if symbol not in market_data or '1' in market_data[symbol]['candles_by_tf']:
continue` — it skips the symbol precisely when its 1-minute series IS
present; when the 1-minute series is absent the very next line indexes
`['1']` and raises `KeyError`. So an iteration either skips the position or
aborts the whole step; the PnL/SL/TP/close code below the guard is reached
on no input. -/
def sim_sl_tp_scan (market_data : String → Option MarketView) :
    List String → Ledger → Except String Ledger
  | [], positions => .ok positions
  | symbol :: rest, positions =>
    match market_data symbol with
    | none => sim_sl_tp_scan market_data rest positions
    | some view =>
      if ((view.candles_by_tf.lookup "1").isSome) then
        sim_sl_tp_scan market_data rest positions
      else
        .error "KeyError: 1"

/-- The whole SL/TP pass of one `simulate_time_step` over every open
position. -/
def simulate_sl_tp_step (market_data : String → Option MarketView)
    (positions : Ledger) : Except String Ledger :=
  sim_sl_tp_scan market_data (positions.map Prod.fst) positions

/-- backtester.py:82 `metrics` dict of `backtest`. -/
structure Metrics where
  pnl : ℚ
  wins : ℕ
  trades : ℕ
  max_drawdown : ℚ
  peak_balance : ℚ
deriving DecidableEq, Repr

/-- backtester.py:88-94, the per-time-step aggregate-metrics update of
`backtest`: recompute pnl, peak balance and max drawdown. Neither here nor
anywhere else are `metrics['wins']` or `metrics['trades']` assigned —
backtester.py:95 is only the comment
`# Win/trades (simplified; count positive PnL on close in close funcs and update metrics)`. -/
def metrics_step_update (initial_balance current_balance positions_pnl : ℚ)
    (m : Metrics) : Metrics :=
  let current_total := current_balance + positions_pnl
  let peak := max m.peak_balance current_total
  let drawdown := if 0 < peak then (peak - current_total) / peak else 0
  { m with
      pnl := current_total - initial_balance,
      peak_balance := peak,
      max_drawdown := max m.max_drawdown drawdown }

/-- The events of one backtest run that can touch the metrics or the ledger:
a per-step metrics update (backtester.py:88-94) or a close issued for a
symbol (via `close_long`, which never receives the metrics dict). -/
inductive BtEvent
  | step (current_balance positions_pnl : ℚ)
  | closeLongEvt (symbol : String) (price : Option ℚ)

/-- A backtest run folded over its events (state: ledger+balance and the
metrics dict). -/
def bt_run (cfg : OrdCfg) (initial_balance : ℚ) :
    List BtEvent → OrdState × Metrics → OrdState × Metrics
  | [], sm => sm
  | BtEvent.step bal pnl :: evs, (st, m) =>
    bt_run cfg initial_balance evs (st, metrics_step_update initial_balance bal pnl m)
  | BtEvent.closeLongEvt sym price :: evs, (st, m) =>
    bt_run cfg initial_balance evs ((close_long cfg Mode.backtest price false st sym).2, m)

/-- A minimal valid candle for concrete checks: all OHLC fields equal `p`. -/
def mkc (t : ℤ) (p : ℚ) : Candle :=
  { timestamp := t, open_ := p, high := p, low := p, close := p, volume := 0 }

/-- Concrete order-manager configuration for concrete checks: cap 5, 0.1%
slippage and fee. -/
def cfgW : OrdCfg := { max_positions := 5, slippage_pct := 1/1000, fee_rate := 1/1000 }

/-- Concrete open long position (entry 100, stop-loss 90, take-profit 200)
for concrete checks. -/
def posW : Position :=
  { side := Side.long, entry := 100, size := 1, sl := some 90, tp := some 200, pnl := 0 }

/-- Concrete market data for concrete checks: BTCUSDT has a 1-minute series
whose latest close is 50 (far below `posW`'s stop-loss of 90). -/
def mdW : String → Option MarketView :=
  fun s => if s = "BTCUSDT" then some { candles_by_tf := [("1", [mkc 0 50])] } else none

/-- Concrete historical-data source for concrete checks: a single short page
of three rows (the trailing one being the still-open candle). -/
def ghdW : Option ℤ → KlineResponse :=
  fun _ => { retCode := 0, list := [mkc 0 1, mkc 60000 2, mkc 120000 3] }

theorem StrictAsc.nodup_timestamps {l : List Candle} (h : StrictAsc l) :
    (l.map Candle.timestamp).Nodup := by
  rw [List.Nodup, List.pairwise_map]
  exact h.imp (fun hlt => ne_of_lt hlt)

/-- If the scan falls through (append path), the new candle's timestamp is
strictly above every stored timestamp. -/
theorem acu_scan_fallthrough {full : Bool} {c : Candle} :
    ∀ {dq : List Candle}, acu_scan full c dq = some none →
      ∀ e ∈ dq, e.timestamp < c.timestamp := by
  intro dq
  induction dq with
  | nil => intro _ e he; cases he
  | cons x rest ih =>
    intro h e he
    unfold acu_scan at h
    by_cases hx : x.timestamp = c.timestamp
    · simp [hx] at h
    · rw [if_neg hx] at h
      by_cases hlt : c.timestamp < x.timestamp
      · rw [if_pos hlt] at h
        cases full <;> simp at h
      · rw [if_neg hlt] at h
        have hxc : x.timestamp < c.timestamp := lt_of_le_of_ne (not_lt.mp hlt) hx
        rcases List.mem_cons.mp he with rfl | he'
        · exact hxc
        · cases hrec : acu_scan full c rest with
          | none => rw [hrec] at h; cases h
          | some o =>
            cases o with
            | none => exact ih hrec e he'
            | some l => rw [hrec] at h; cases h

/-- Elements of a scan result are either the new candle or stored entries. -/
theorem acu_scan_mem {full : Bool} {c : Candle} :
    ∀ {dq l : List Candle}, acu_scan full c dq = some (some l) →
      ∀ x ∈ l, x = c ∨ x ∈ dq := by
  intro dq
  induction dq with
  | nil => intro l h; simp [acu_scan] at h
  | cons e rest ih =>
    intro l h x hx
    unfold acu_scan at h
    by_cases he : e.timestamp = c.timestamp
    · rw [if_pos he] at h
      injection h with h; injection h with h; subst h
      rcases List.mem_cons.mp hx with rfl | hx'
      · exact Or.inl rfl
      · exact Or.inr (List.mem_cons_of_mem _ hx')
    · rw [if_neg he] at h
      by_cases hlt : c.timestamp < e.timestamp
      · rw [if_pos hlt] at h
        cases full with
        | true => simp at h
        | false =>
          injection h with h; injection h with h; subst h
          rcases List.mem_cons.mp hx with rfl | hx'
          · exact Or.inl rfl
          · exact Or.inr hx'
      · rw [if_neg hlt] at h
        cases hrec : acu_scan full c rest with
        | none => rw [hrec] at h; cases h
        | some o =>
          cases o with
          | none => rw [hrec] at h; cases h
          | some l' =>
            rw [hrec] at h
            injection h with h; injection h with h; subst h
            rcases List.mem_cons.mp hx with rfl | hx'
            · exact Or.inr (List.mem_cons_self _ _)
            · rcases ih hrec x hx' with h' | h'
              · exact Or.inl h'
              · exact Or.inr (List.mem_cons_of_mem _ h')

/-- The update/insert paths of the scan preserve strict timestamp order. -/
theorem acu_scan_strictAsc {full : Bool} {c : Candle} :
    ∀ {dq l : List Candle}, StrictAsc dq → acu_scan full c dq = some (some l) →
      StrictAsc l := by
  intro dq
  induction dq with
  | nil => intro l _ h; simp [acu_scan] at h
  | cons e rest ih =>
    intro l hasc h
    rw [StrictAsc, List.pairwise_cons] at hasc
    obtain ⟨hehead, hrest⟩ := hasc
    unfold acu_scan at h
    by_cases he : e.timestamp = c.timestamp
    · rw [if_pos he] at h
      injection h with h; injection h with h; subst h
      exact List.Pairwise.cons (fun b hb => he ▸ hehead b hb) hrest
    · rw [if_neg he] at h
      by_cases hlt : c.timestamp < e.timestamp
      · rw [if_pos hlt] at h
        cases full with
        | true => simp at h
        | false =>
          injection h with h; injection h with h; subst h
          refine List.Pairwise.cons ?_ (List.Pairwise.cons hehead hrest)
          intro b hb
          rcases List.mem_cons.mp hb with rfl | hb'
          · exact hlt
          · exact lt_trans hlt (hehead b hb')
      · rw [if_neg hlt] at h
        have hec : e.timestamp < c.timestamp := lt_of_le_of_ne (not_lt.mp hlt) he
        cases hrec : acu_scan full c rest with
        | none => rw [hrec] at h; cases h
        | some o =>
          cases o with
          | none => rw [hrec] at h; cases h
          | some l' =>
            rw [hrec] at h
            injection h with h; injection h with h; subst h
            refine List.Pairwise.cons ?_ (ih hrest hrec)
            intro b hb
            rcases acu_scan_mem hrec b hb with rfl | hb'
            · exact hec
            · exact hehead b hb'

/-- On a strictly ascending deque holding an entry with the new candle's
timestamp, the scan performs exactly the update-in-place: that entry is
replaced by the new candle and nothing else changes (regardless of whether
the deque is full — the update path never raises). -/
theorem acu_scan_update {full : Bool} {c : Candle} :
    ∀ {dq : List Candle}, StrictAsc dq →
      (∃ e ∈ dq, e.timestamp = c.timestamp) →
      acu_scan full c dq =
        some (some (dq.map fun x => if x.timestamp = c.timestamp then c else x)) := by
  intro dq
  induction dq with
  | nil => rintro _ ⟨e, he, _⟩; cases he
  | cons e rest ih =>
    rintro hasc ⟨w, hw, hwc⟩
    rw [StrictAsc, List.pairwise_cons] at hasc
    obtain ⟨hehead, hrest⟩ := hasc
    unfold acu_scan
    by_cases he : e.timestamp = c.timestamp
    · rw [if_pos he]
      have hmapRest : rest.map (fun x => if x.timestamp = c.timestamp then c else x) = rest := by
        have hfix : ∀ x ∈ rest, (if x.timestamp = c.timestamp then c else x) = id x := by
          intro x hx
          have hlt : e.timestamp < x.timestamp := hehead x hx
          simp only [id]
          rw [if_neg (by omega)]
        rw [List.map_congr_left hfix, List.map_id]
      simp only [List.map_cons, if_pos he, hmapRest]
    · rw [if_neg he]
      have hwrest : w ∈ rest := by
        rcases List.mem_cons.mp hw with rfl | h'
        · exact absurd hwc he
        · exact h'
      have hec : e.timestamp < c.timestamp := hwc ▸ hehead w hwrest
      rw [if_neg (not_lt.mpr (le_of_lt hec))]
      rw [ih hrest ⟨w, hwrest, hwc⟩]
      simp only [List.map_cons, if_neg he]

/-- Scan result sizes: an update keeps the length, an insert (only possible
when not full) adds one. -/
theorem acu_scan_length {full : Bool} {c : Candle} :
    ∀ {dq l : List Candle}, acu_scan full c dq = some (some l) →
      l.length = dq.length ∨ (full = false ∧ l.length = dq.length + 1) := by
  intro dq
  induction dq with
  | nil => intro l h; simp [acu_scan] at h
  | cons e rest ih =>
    intro l h
    unfold acu_scan at h
    by_cases he : e.timestamp = c.timestamp
    · rw [if_pos he] at h
      injection h with h; injection h with h; subst h
      exact Or.inl rfl
    · rw [if_neg he] at h
      by_cases hlt : c.timestamp < e.timestamp
      · rw [if_pos hlt] at h
        cases full with
        | true => simp at h
        | false =>
          injection h with h; injection h with h; subst h
          exact Or.inr ⟨rfl, rfl⟩
      · rw [if_neg hlt] at h
        cases hrec : acu_scan full c rest with
        | none => rw [hrec] at h; cases h
        | some o =>
          cases o with
          | none => rw [hrec] at h; cases h
          | some l' =>
            rw [hrec] at h
            injection h with h; injection h with h; subst h
            rcases ih hrec with h' | ⟨hf, h'⟩
            · exact Or.inl (by simp [h'])
            · exact Or.inr ⟨hf, by simp [h']⟩

/-- When the new candle is newer than every stored entry, the scan falls
through to the append path. -/
theorem acu_scan_newest {full : Bool} {c : Candle} :
    ∀ {dq : List Candle}, (∀ e ∈ dq, e.timestamp < c.timestamp) →
      acu_scan full c dq = some none := by
  intro dq
  induction dq with
  | nil => intro _; rfl
  | cons e rest ih =>
    intro hall
    have he : e.timestamp < c.timestamp := hall e (List.mem_cons_self _ _)
    unfold acu_scan
    rw [if_neg (by omega), if_neg (by omega)]
    rw [ih (fun x hx => hall x (List.mem_cons_of_mem _ hx))]

/-- On a full deque, a candle matching no stored timestamp but older than
some stored entry makes the scan raise the positional-insert IndexError. -/
theorem acu_scan_insert_full {c : Candle} :
    ∀ {dq : List Candle}, (∀ e ∈ dq, e.timestamp ≠ c.timestamp) →
      (∃ e ∈ dq, c.timestamp < e.timestamp) →
      acu_scan true c dq = none := by
  intro dq
  induction dq with
  | nil => rintro _ ⟨e, he, _⟩; cases he
  | cons e rest ih =>
    rintro hne ⟨w, hw, hwc⟩
    have hene : e.timestamp ≠ c.timestamp := hne e (List.mem_cons_self _ _)
    unfold acu_scan
    rw [if_neg hene]
    by_cases hlt : c.timestamp < e.timestamp
    · rw [if_pos hlt]
      rfl
    · rw [if_neg hlt]
      have hwrest : w ∈ rest := by
        rcases List.mem_cons.mp hw with rfl | h'
        · exact absurd hwc hlt
        · exact h'
      rw [ih (fun x hx => hne x (List.mem_cons_of_mem _ hx)) ⟨w, hwrest, hwc⟩]

/-- Any successful `add_candle_uniquely` preserves strict ascending order. -/
theorem add_candle_uniquely_strictAsc {maxlen : ℕ} {dq l : List Candle} {c : Candle}
    (hasc : StrictAsc dq) (h : add_candle_uniquely maxlen dq c = some l) :
    StrictAsc l := by
  unfold add_candle_uniquely at h
  cases hscan : acu_scan (decide (maxlen ≤ dq.length)) c dq with
  | none => rw [hscan] at h; cases h
  | some o =>
    cases o with
    | some l' =>
      rw [hscan] at h
      injection h with h; subst h
      exact acu_scan_strictAsc hasc hscan
    | none =>
      rw [hscan] at h
      injection h with h; subst h
      have hall := acu_scan_fallthrough hscan
      have happ : StrictAsc (dq ++ [c]) := by
        rw [StrictAsc, List.pairwise_append]
        exact ⟨hasc, List.pairwise_singleton _ _, fun a ha b hb => by
          rw [List.mem_singleton.mp hb]; exact hall a ha⟩
      have hdrop : StrictAsc ((dq ++ [c]).drop (dq.length + 1 - maxlen)) :=
        List.Pairwise.sublist (List.drop_sublist _ _) happ
      split
      · exact List.Pairwise.sublist (List.drop_sublist _ _) hdrop
      · exact hdrop

/-- Any successful `add_candle_uniquely` keeps the length within the deque
bound, provided the deque is within bound beforehand. -/
theorem add_candle_uniquely_length {maxlen : ℕ} {dq l : List Candle} {c : Candle}
    (hlen : dq.length ≤ maxlen) (h : add_candle_uniquely maxlen dq c = some l) :
    l.length ≤ maxlen := by
  unfold add_candle_uniquely at h
  cases hscan : acu_scan (decide (maxlen ≤ dq.length)) c dq with
  | none => rw [hscan] at h; cases h
  | some o =>
    cases o with
    | some l' =>
      rw [hscan] at h
      injection h with h; subst h
      rcases acu_scan_length hscan with h' | ⟨hf, h'⟩
      · omega
      · have : ¬ (maxlen ≤ dq.length) := by
          intro hle
          rw [decide_eq_true hle] at hf
          cases hf
        omega
    | none =>
      rw [hscan] at h
      injection h with h; subst h
      have hlen1 : ((dq ++ [c]).drop (dq.length + 1 - maxlen)).length ≤ maxlen := by
        rw [List.length_drop, List.length_append]
        simp only [List.length_singleton]
        omega
      split
      · rw [List.length_drop]; omega
      · exact hlen1

/-- The result of the `_process_kline` per-candle pipeline is always either
the unchanged deque or a successful `add_candle_uniquely` result. -/
theorem process_kline_candle_cases (maxlen interval : ℕ) (dq : List Candle) (c : Candle) :
    process_kline_candle maxlen interval dq c = dq ∨
      add_candle_uniquely maxlen dq c = some (process_kline_candle maxlen interval dq c) := by
  unfold process_kline_candle
  by_cases hv : validate_candle c = true
  · rw [if_pos hv]
    have hgetD : add_candle_uniquely maxlen dq c = none ∨
        add_candle_uniquely maxlen dq c = some ((add_candle_uniquely maxlen dq c).getD dq) := by
      cases hadd : add_candle_uniquely maxlen dq c with
      | none => exact Or.inl rfl
      | some l => exact Or.inr rfl
    cases hlast : dq.getLast? with
    | some lastC =>
      dsimp only
      by_cases hstale : c.timestamp < lastC.timestamp - 3 * ((interval : ℤ) * 60 * 1000)
      · rw [if_pos hstale]
        exact Or.inl rfl
      · rw [if_neg hstale]
        rcases hgetD with hnone | hsome
        · rw [hnone]
          exact Or.inl rfl
        · exact Or.inr hsome
    | none =>
      dsimp only
      rcases hgetD with hnone | hsome
      · rw [hnone]
        exact Or.inl rfl
      · exact Or.inr hsome
  · rw [if_neg hv]
    exact Or.inl rfl

/-- Ingesting any candle through the `_process_kline` per-candle pipeline
preserves strict ascending order. -/
theorem process_kline_candle_strictAsc {maxlen interval : ℕ} {dq : List Candle} {c : Candle}
    (hasc : StrictAsc dq) : StrictAsc (process_kline_candle maxlen interval dq c) := by
  rcases process_kline_candle_cases maxlen interval dq c with h | h
  · rw [h]; exact hasc
  · exact add_candle_uniquely_strictAsc hasc h

/-- Ingesting any candle through the `_process_kline` per-candle pipeline
keeps the series within the deque bound. -/
theorem process_kline_candle_length {maxlen interval : ℕ} {dq : List Candle} {c : Candle}
    (hlen : dq.length ≤ maxlen) :
    (process_kline_candle maxlen interval dq c).length ≤ maxlen := by
  rcases process_kline_candle_cases maxlen interval dq c with h | h
  · rw [h]; exact hlen
  · exact add_candle_uniquely_length hlen h

/-- An equal-timestamp ingest is an update-in-place: the matching entry is
replaced by the new candle, everything else (order, length, other entries)
is untouched; this path never raises, full deque or not. -/
theorem add_candle_uniquely_update {maxlen : ℕ} {dq : List Candle} {c e : Candle}
    (hasc : StrictAsc dq) (he : e ∈ dq) (hts : e.timestamp = c.timestamp) :
    add_candle_uniquely maxlen dq c =
      some (dq.map fun x => if x.timestamp = c.timestamp then c else x) := by
  unfold add_candle_uniquely
  rw [acu_scan_update hasc ⟨e, he, hts⟩]

/-- Appending a candle newer than every stored entry to a full deque (bound
at most 50) evicts exactly the oldest entry: the result is the tail of the
deque followed by the new candle. -/
theorem add_candle_uniquely_full_append {maxlen : ℕ} {dq : List Candle} {c : Candle}
    (hfull : dq.length = maxlen) (hpos : 0 < maxlen) (hle : maxlen ≤ 50)
    (hnew : ∀ e ∈ dq, e.timestamp < c.timestamp) :
    add_candle_uniquely maxlen dq c = some (dq.tail ++ [c]) := by
  unfold add_candle_uniquely
  rw [acu_scan_newest hnew]
  have h1 : dq.length + 1 - maxlen = 1 := by omega
  have hdropapp : (dq ++ [c]).drop (dq.length + 1 - maxlen) = dq.drop 1 ++ [c] := by
    rw [h1, List.drop_append_of_le_length (by omega)]
  have hlen2 : (dq.drop 1 ++ [c]).length = maxlen := by
    rw [List.length_append, List.length_drop]
    simp only [List.length_singleton]
    omega
  simp only [hdropapp, hlen2]
  rw [if_neg (by omega), List.drop_one]

/-- A positional insert into a full deque (a candle matching no stored
timestamp but older than some stored entry) raises IndexError: nothing is
inserted and nothing is evicted. -/
theorem add_candle_uniquely_full_insert {maxlen : ℕ} {dq : List Candle} {c : Candle}
    (hfull : maxlen ≤ dq.length)
    (hne : ∀ e ∈ dq, e.timestamp ≠ c.timestamp)
    (hex : ∃ e ∈ dq, c.timestamp < e.timestamp) :
    add_candle_uniquely maxlen dq c = none := by
  unfold add_candle_uniquely
  rw [decide_eq_true hfull, acu_scan_insert_full hne hex]

/-- Through the live-ingestion pipeline: an equal-timestamp candle that is
valid and not stale is an update-in-place. -/
theorem process_kline_candle_update {maxlen interval : ℕ} {dq : List Candle}
    {c e lastC : Candle}
    (hasc : StrictAsc dq) (hv : validate_candle c = true)
    (hlast : dq.getLast? = some lastC)
    (hfresh : ¬ c.timestamp < lastC.timestamp - 3 * ((interval : ℤ) * 60 * 1000))
    (he : e ∈ dq) (hts : e.timestamp = c.timestamp) :
    process_kline_candle maxlen interval dq c =
      dq.map fun x => if x.timestamp = c.timestamp then c else x := by
  unfold process_kline_candle
  rw [if_pos hv, hlast]
  dsimp only
  rw [if_neg hfresh, add_candle_uniquely_update hasc he hts]
  rfl

/-- Folding any arrival sequence through the live-ingestion pipeline keeps
the series strictly ascending. -/
theorem ingest_fold_strictAsc (maxlen interval : ℕ) (dq cs : List Candle)
    (hasc : StrictAsc dq) :
    StrictAsc (cs.foldl (process_kline_candle maxlen interval) dq) := by
  induction cs generalizing dq with
  | nil => exact hasc
  | cons c cs ih => exact ih _ (process_kline_candle_strictAsc hasc)

/-- Folding any arrival sequence through the live-ingestion pipeline keeps
the series within the deque bound. -/
theorem ingest_fold_length (maxlen interval : ℕ) (dq cs : List Candle)
    (hlen : dq.length ≤ maxlen) :
    (cs.foldl (process_kline_candle maxlen interval) dq).length ≤ maxlen := by
  induction cs generalizing dq with
  | nil => exact hlen
  | cons c cs ih => exact ih _ (process_kline_candle_length hlen)

/-- Upserting a timestamp already present leaves the timestamp sequence
unchanged (the value is replaced in place). -/
theorem dict_upsert_map_ts_mem {acc : List Candle} {c : Candle}
    (h : acc.any (fun e => decide (e.timestamp = c.timestamp)) = true) :
    (dict_upsert acc c).map Candle.timestamp = acc.map Candle.timestamp := by
  unfold dict_upsert
  rw [if_pos h, List.map_map]
  apply List.map_congr_left
  intro e _
  by_cases he : e.timestamp = c.timestamp
  · simp [he]
  · simp [he]

/-- Upserting a fresh timestamp appends it to the timestamp sequence. -/
theorem dict_upsert_map_ts_new {acc : List Candle} {c : Candle}
    (h : acc.any (fun e => decide (e.timestamp = c.timestamp)) = false) :
    (dict_upsert acc c).map Candle.timestamp =
      acc.map Candle.timestamp ++ [c.timestamp] := by
  unfold dict_upsert
  rw [h]
  simp

/-- Upserting preserves timestamp-distinctness of the accumulator. -/
theorem dict_upsert_nodup {acc : List Candle} {c : Candle}
    (h : (acc.map Candle.timestamp).Nodup) :
    ((dict_upsert acc c).map Candle.timestamp).Nodup := by
  cases hany : acc.any (fun e => decide (e.timestamp = c.timestamp)) with
  | true => rw [dict_upsert_map_ts_mem hany]; exact h
  | false =>
    rw [dict_upsert_map_ts_new hany]
    have hnotmem : c.timestamp ∉ acc.map Candle.timestamp := by
      intro hmem
      rcases List.mem_map.mp hmem with ⟨e, he, hts⟩
      have := List.any_eq_false.mp hany e he
      simp only [decide_eq_true_eq] at this
      exact this hts
    simp [List.nodup_append, h, hnotmem]

/-- After an upsert the new candle's timestamp is present. -/
theorem dict_upsert_covers {acc : List Candle} (c : Candle) :
    c.timestamp ∈ (dict_upsert acc c).map Candle.timestamp := by
  cases hany : acc.any (fun e => decide (e.timestamp = c.timestamp)) with
  | true =>
    rw [dict_upsert_map_ts_mem hany]
    rcases List.any_eq_true.mp hany with ⟨e, he, hts⟩
    simp only [decide_eq_true_eq] at hts
    exact List.mem_map.mpr ⟨e, he, hts⟩
  | false =>
    rw [dict_upsert_map_ts_new hany]
    simp

/-- Upserting never removes a timestamp from the accumulator. -/
theorem dict_upsert_keeps {acc : List Candle} {c : Candle} {t : ℤ}
    (h : t ∈ acc.map Candle.timestamp) :
    t ∈ (dict_upsert acc c).map Candle.timestamp := by
  cases hany : acc.any (fun e => decide (e.timestamp = c.timestamp)) with
  | true => rw [dict_upsert_map_ts_mem hany]; exact h
  | false => rw [dict_upsert_map_ts_new hany]; exact List.mem_append_left _ h

theorem dedup_fold_nodup {l acc : List Candle}
    (h : (acc.map Candle.timestamp).Nodup) :
    ((l.foldl dict_upsert acc).map Candle.timestamp).Nodup := by
  induction l generalizing acc with
  | nil => exact h
  | cons c rest ih => exact ih (dict_upsert_nodup h)

theorem dedup_fold_keeps {l : List Candle} {t : ℤ} :
    ∀ {acc : List Candle}, t ∈ acc.map Candle.timestamp →
      t ∈ ((l.foldl dict_upsert acc).map Candle.timestamp) := by
  induction l with
  | nil => intro acc h; exact h
  | cons c rest ih => intro acc h; exact ih (dict_upsert_keeps h)

theorem dedup_fold_covers {l : List Candle} {a : Candle} (ha : a ∈ l) :
    ∀ {acc : List Candle}, a.timestamp ∈ ((l.foldl dict_upsert acc).map Candle.timestamp) := by
  induction l with
  | nil => cases ha
  | cons c rest ih =>
    intro acc
    rw [List.foldl_cons]
    rcases List.mem_cons.mp ha with rfl | ha'
    · exact dedup_fold_keeps (dict_upsert_covers a)
    · exact ih ha'

/-- The deduplicated pool has pairwise-distinct timestamps. -/
theorem dedup_keep_last_nodup (l : List Candle) :
    ((dedup_keep_last l).map Candle.timestamp).Nodup :=
  dedup_fold_nodup (by simp)

/-- Every ingested timestamp survives deduplication. -/
theorem dedup_keep_last_covers {l : List Candle} {a : Candle} (ha : a ∈ l) :
    a.timestamp ∈ ((dedup_keep_last l).map Candle.timestamp) :=
  dedup_fold_covers ha

/-- Sorting the deduplicated pool by timestamp yields a strictly ascending
list (sortedness from the sort, strictness from distinct timestamps). -/
theorem sorted_dedup_strictAsc (l : List Candle) :
    StrictAsc (List.insertionSort candle_le (dedup_keep_last l)) := by
  have hsorted : List.Sorted candle_le (List.insertionSort candle_le (dedup_keep_last l)) :=
    List.sorted_insertionSort candle_le (dedup_keep_last l)
  have hperm : List.Perm (List.insertionSort candle_le (dedup_keep_last l)) (dedup_keep_last l) :=
    List.perm_insertionSort candle_le (dedup_keep_last l)
  have hnodup : ((List.insertionSort candle_le (dedup_keep_last l)).map Candle.timestamp).Nodup :=
    ((hperm.map Candle.timestamp).nodup_iff).mpr (dedup_keep_last_nodup l)
  have hne : List.Pairwise (fun a b : Candle => a.timestamp ≠ b.timestamp)
      (List.insertionSort candle_le (dedup_keep_last l)) := by
    rw [List.Nodup, List.pairwise_map] at hnodup
    exact hnodup
  exact (hsorted.and hne).imp (fun h => lt_of_le_of_ne h.1 h.2)

/-- Dropping a prefix preserves strict ascent. -/
theorem strictAsc_drop {l : List Candle} (h : StrictAsc l) (n : ℕ) :
    StrictAsc (l.drop n) :=
  List.Pairwise.sublist (List.drop_sublist _ _) h

/-- In a strictly ascending list, every timestamp that the final suffix does
not retain is strictly below every retained timestamp ("the suffix keeps the
most recent entries"). -/
theorem strictAsc_drop_most_recent {l : List Candle} (h : StrictAsc l) (n : ℕ)
    {t : ℤ} (ht : t ∈ l.map Candle.timestamp)
    (hnot : t ∉ (l.drop n).map Candle.timestamp) :
    ∀ b ∈ l.drop n, t < b.timestamp := by
  intro b hb
  rcases List.mem_map.mp ht with ⟨a, ha, rfl⟩
  have hsplit : l.take n ++ l.drop n = l := List.take_append_drop n l
  have ha' : a ∈ l.take n ∨ a ∈ l.drop n := by
    rw [← hsplit] at ha
    exact List.mem_append.mp ha
  rcases ha' with hatake | hadrop
  · have hp := h
    rw [← hsplit, StrictAsc, List.pairwise_append] at hp
    exact hp.2.2 a hatake b hb
  · exact absurd (List.mem_map.mpr ⟨a, hadrop, rfl⟩) hnot

/-- The backfill result is strictly ascending for every source and limit. -/
theorem get_historical_data_strictAsc (source : Option ℤ → KlineResponse)
    (fuel limit : ℕ) (start_time : Option ℤ) :
    StrictAsc (get_historical_data source fuel limit start_time) := by
  unfold get_historical_data
  cases hc : ghd_collect source fuel start_time with
  | none => exact List.Pairwise.nil
  | some data =>
    dsimp only
    split
    · exact sorted_dedup_strictAsc data
    · exact strictAsc_drop (sorted_dedup_strictAsc data) _

/-- The backfill result respects the retention bound (for a positive bound;
a Python slice `[-0:]` would keep everything). -/
theorem get_historical_data_length_le (source : Option ℤ → KlineResponse)
    (fuel limit : ℕ) (start_time : Option ℤ) (hlim : 0 < limit) :
    (get_historical_data source fuel limit start_time).length ≤ limit := by
  unfold get_historical_data
  cases hc : ghd_collect source fuel start_time with
  | none => simp
  | some data =>
    dsimp only
    rw [if_neg (by omega), List.length_drop]
    omega

/-- C7 (amended, for positive `limit`): `get_historical_data` pages the
source in batches of at most 1000 rows (each request carries `limit=1000`;
see `ghd_loop`, which recurses only while a page still holds at least 1000
rows after the drop), excludes the still-open trailing candle of every page
(`[:-1]`, the `dropLast` in `ghd_loop`), and returns a series that is
deduplicated by timestamp, sorted strictly ascending, truncated to at most
`limit` entries, and keeps exactly the most recent ones: any collected
timestamp it does not retain lies strictly below every retained one. The
positivity hypothesis is forced: at `limit = 0` Python's `sorted_data[-0:]`
slice returns the whole series untruncated (see
`backfill_zero_limit_not_truncated`). -/
theorem get_historical_data_spec (source : Option ℤ → KlineResponse) (fuel limit : ℕ)
    (start_time : Option ℤ) (hlim : 0 < limit) :
    StrictAsc (get_historical_data source fuel limit start_time) ∧
    ((get_historical_data source fuel limit start_time).map Candle.timestamp).Nodup ∧
    (get_historical_data source fuel limit start_time).length ≤ limit ∧
    (∀ data, ghd_collect source fuel start_time = some data →
      ∀ a ∈ data,
        a.timestamp ∉ (get_historical_data source fuel limit start_time).map Candle.timestamp →
        ∀ b ∈ get_historical_data source fuel limit start_time, a.timestamp < b.timestamp) := by
  have hasc := get_historical_data_strictAsc source fuel limit start_time
  refine ⟨hasc, hasc.nodup_timestamps,
    get_historical_data_length_le source fuel limit start_time hlim, ?_⟩
  intro data hc a ha hnot b hb
  have hmain : get_historical_data source fuel limit start_time =
      (List.insertionSort candle_le (dedup_keep_last data)).drop
        ((List.insertionSort candle_le (dedup_keep_last data)).length - limit) := by
    unfold get_historical_data
    rw [hc]
    dsimp only
    rw [if_neg (by omega)]
  rw [hmain] at hnot hb
  have hts : a.timestamp ∈
      (List.insertionSort candle_le (dedup_keep_last data)).map Candle.timestamp := by
    rw [List.Perm.mem_iff
      ((List.perm_insertionSort candle_le (dedup_keep_last data)).map Candle.timestamp)]
    exact dedup_keep_last_covers ha
  exact strictAsc_drop_most_recent (sorted_dedup_strictAsc data) _ hts hnot b hb

/-- Witness for `get_historical_data_spec` at a concrete one-page source. -/
theorem get_historical_data_spec_witness :
    0 < 1 ∧
    (StrictAsc (get_historical_data ghdW 1 1 none) ∧
     ((get_historical_data ghdW 1 1 none).map Candle.timestamp).Nodup ∧
     (get_historical_data ghdW 1 1 none).length ≤ 1 ∧
     (∀ data, ghd_collect ghdW 1 none = some data →
       ∀ a ∈ data,
         a.timestamp ∉ (get_historical_data ghdW 1 1 none).map Candle.timestamp →
         ∀ b ∈ get_historical_data ghdW 1 1 none, a.timestamp < b.timestamp)) :=
  ⟨by decide, get_historical_data_spec ghdW 1 1 none (by decide)⟩

/-- No branch of `open_long` mutates the ledger or balance: the cap and
missing-price branches return early, the backtest branch raises before its
mutations, and the live branch delegates without touching local state. -/
theorem open_long_state_unchanged (cfg : OrdCfg) (mode : Mode) (price : Option ℚ)
    (lr : Bool) (st : OrdState) (sym : String) (amt : ℚ) (sl tp : Option ℚ) :
    (open_long cfg mode price lr st sym amt sl tp).2 = st := by
  unfold open_long
  split
  · rfl
  · split
    · rfl
    · cases mode <;> rfl

theorem open_short_state_unchanged (cfg : OrdCfg) (mode : Mode) (price : Option ℚ)
    (lr : Bool) (st : OrdState) (sym : String) (amt : ℚ) (sl tp : Option ℚ) :
    (open_short cfg mode price lr st sym amt sl tp).2 = st := by
  unfold open_short
  split
  · rfl
  · split
    · rfl
    · cases mode <;> rfl

theorem close_long_state_unchanged (cfg : OrdCfg) (mode : Mode) (price : Option ℚ)
    (lr : Bool) (st : OrdState) (sym : String) :
    (close_long cfg mode price lr st sym).2 = st := by
  unfold close_long
  cases st.positions.lookup sym with
  | none => rfl
  | some pos =>
    dsimp only
    split
    · rfl
    · split
      · rfl
      · cases mode <;> rfl

theorem close_short_state_unchanged (cfg : OrdCfg) (mode : Mode) (price : Option ℚ)
    (lr : Bool) (st : OrdState) (sym : String) :
    (close_short cfg mode price lr st sym).2 = st := by
  unfold close_short
  cases st.positions.lookup sym with
  | none => rfl
  | some pos =>
    dsimp only
    split
    · rfl
    · split
      · rfl
      · cases mode <;> rfl

/-- C4: with the ledger at (or beyond) the configured maximum, every
`open_long`/`open_short` call returns `False` with the state untouched; and
starting within the cap, no operation pushes the ledger's cardinality past
the cap. -/
theorem position_cap_enforced :
    (∀ (cfg : OrdCfg) (mode : Mode) (price : Option ℚ) (lr : Bool) (st : OrdState)
      (sym : String) (amt : ℚ) (sl tp : Option ℚ),
      cfg.max_positions ≤ st.positions.length →
      open_long cfg mode price lr st sym amt sl tp = (.retFalse, st) ∧
      open_short cfg mode price lr st sym amt sl tp = (.retFalse, st)) ∧
    (∀ (cfg : OrdCfg) (mode : Mode) (price : Option ℚ) (lr : Bool) (st : OrdState)
      (sym : String) (amt : ℚ) (sl tp : Option ℚ),
      st.positions.length ≤ cfg.max_positions →
      (open_long cfg mode price lr st sym amt sl tp).2.positions.length ≤ cfg.max_positions ∧
      (open_short cfg mode price lr st sym amt sl tp).2.positions.length ≤ cfg.max_positions ∧
      (close_long cfg mode price lr st sym).2.positions.length ≤ cfg.max_positions ∧
      (close_short cfg mode price lr st sym).2.positions.length ≤ cfg.max_positions) := by
  constructor
  · intro cfg mode price lr st sym amt sl tp hcap
    constructor
    · unfold open_long
      rw [if_pos hcap]
    · unfold open_short
      rw [if_pos hcap]
  · intro cfg mode price lr st sym amt sl tp hle
    rw [open_long_state_unchanged, open_short_state_unchanged,
      close_long_state_unchanged, close_short_state_unchanged]
    exact ⟨hle, hle, hle, hle⟩

/-- Witness for `position_cap_enforced` with a one-position cap already
reached. -/
theorem position_cap_enforced_witness :
    (open_long { max_positions := 1, slippage_pct := 0, fee_rate := 0 } Mode.backtest
        (some 100) false { positions := [("BTCUSDT", posW)], current_balance := 1000 }
        "ETHUSDT" 1 none none
      = (.retFalse, { positions := [("BTCUSDT", posW)], current_balance := 1000 }) ∧
     open_short { max_positions := 1, slippage_pct := 0, fee_rate := 0 } Mode.backtest
        (some 100) false { positions := [("BTCUSDT", posW)], current_balance := 1000 }
        "ETHUSDT" 1 none none
      = (.retFalse, { positions := [("BTCUSDT", posW)], current_balance := 1000 })) ∧
    (close_long { max_positions := 1, slippage_pct := 0, fee_rate := 0 } Mode.backtest
        (some 100) false { positions := [("BTCUSDT", posW)], current_balance := 1000 }
        "BTCUSDT").2.positions.length ≤ 1 :=
  ⟨position_cap_enforced.1 _ Mode.backtest (some 100) false _ "ETHUSDT" 1 none none
      (by decide),
   (position_cap_enforced.2 { max_positions := 1, slippage_pct := 0, fee_rate := 0 }
      Mode.backtest (some 100) false
      { positions := [("BTCUSDT", posW)], current_balance := 1000 }
      "BTCUSDT" 1 none none (by decide)).2.2.1⟩

/-- C5: closing a symbol with no open position of the targeted side returns
success (`True`) and leaves the ledger and the balance unchanged. -/
theorem close_noop_without_matching_position :
    (∀ (cfg : OrdCfg) (mode : Mode) (price : Option ℚ) (lr : Bool) (st : OrdState)
      (sym : String),
      st.positions.lookup sym = none →
      close_long cfg mode price lr st sym = (.retTrue, st) ∧
      close_short cfg mode price lr st sym = (.retTrue, st)) ∧
    (∀ (cfg : OrdCfg) (mode : Mode) (price : Option ℚ) (lr : Bool) (st : OrdState)
      (sym : String) (pos : Position),
      st.positions.lookup sym = some pos →
      (pos.side = Side.short → close_long cfg mode price lr st sym = (.retTrue, st)) ∧
      (pos.side = Side.long → close_short cfg mode price lr st sym = (.retTrue, st))) := by
  constructor
  · intro cfg mode price lr st sym hnone
    constructor
    · unfold close_long
      rw [hnone]
    · unfold close_short
      rw [hnone]
  · intro cfg mode price lr st sym pos hsome
    constructor
    · intro hside
      unfold close_long
      rw [hsome]
      dsimp only
      rw [if_pos (by rw [hside]; decide)]
    · intro hside
      unfold close_short
      rw [hsome]
      dsimp only
      rw [if_pos (by rw [hside]; decide)]

/-- Witness for `close_noop_without_matching_position`: an empty ledger, and
a ledger holding only a long position for the symbol being `close_short`ed. -/
theorem close_noop_without_matching_position_witness :
    (close_long cfgW Mode.backtest (some 100) false
        { positions := [], current_balance := 1000 } "BTCUSDT"
      = (.retTrue, { positions := [], current_balance := 1000 }) ∧
     close_short cfgW Mode.backtest (some 100) false
        { positions := [], current_balance := 1000 } "BTCUSDT"
      = (.retTrue, { positions := [], current_balance := 1000 })) ∧
    close_short cfgW Mode.backtest (some 100) false
        { positions := [("BTCUSDT", posW)], current_balance := 1000 } "BTCUSDT"
      = (.retTrue, { positions := [("BTCUSDT", posW)], current_balance := 1000 }) :=
  ⟨close_noop_without_matching_position.1 cfgW Mode.backtest (some 100) false
      { positions := [], current_balance := 1000 } "BTCUSDT" (by decide),
   (close_noop_without_matching_position.2 cfgW Mode.backtest (some 100) false
      { positions := [("BTCUSDT", posW)], current_balance := 1000 } "BTCUSDT" posW
      (by decide)).2 (by decide)⟩

/-- C6 (evaluation at the failing input): in backtest mode, with the ledger
below the cap and a reference price of 100 available, `open_long` and
`open_short` raise `UnboundLocalError` at `current_balance -= fee`
(orders.py:47/64; the function assigns `current_balance` without a `global`
declaration, making it an unbound local) instead of deducting the fee,
recording the position and returning success; ledger and balance are left
untouched. -/
theorem open_backtest_raises_unbound_local :
    open_long cfgW Mode.backtest (some 100) false
        { positions := [], current_balance := 1000 } "BTCUSDT" 1 (some 95) (some 110)
      = (.exn "UnboundLocalError: current_balance",
         { positions := [], current_balance := 1000 }) ∧
    open_short cfgW Mode.backtest (some 100) false
        { positions := [], current_balance := 1000 } "BTCUSDT" 1 (some 105) (some 90)
      = (.exn "UnboundLocalError: current_balance",
         { positions := [], current_balance := 1000 }) :=
  ⟨rfl, rfl⟩

/-- C8 (evaluation at the failing input): one open long position whose
1-minute close (50) is at or below its stop-loss (90), yet the SL/TP pass of
`simulate_time_step` returns the ledger unchanged — the position is neither
closed nor is its stop updated, because the guard at backtester.py:43 skips
every symbol whose 1-minute series is present (the membership test is
inverted). -/
theorem sl_tp_hit_position_not_closed :
    simulate_sl_tp_step mdW [("BTCUSDT", posW)] = .ok [("BTCUSDT", posW)] ∧
    (mkc 0 50).close ≤ 90 ∧ posW.sl = some 90 ∧ posW.side = Side.long :=
  ⟨rfl, by decide, rfl, rfl⟩

/-- C9: no code path of the backtest increments `metrics['trades']` or
`metrics['wins']` — the per-step update (backtester.py:88-94) touches only
pnl/peak/drawdown and `close_long` never receives the metrics (backtester.py:95
is only a comment) — so after any run the counters still hold their initial
zero, in particular after a run containing a close event (second conjunct). -/
theorem backtest_counters_stay_zero :
    (∀ (cfg : OrdCfg) (b : ℚ) (evs : List BtEvent) (st : OrdState) (m : Metrics),
      (bt_run cfg b evs (st, m)).2.trades = m.trades ∧
      (bt_run cfg b evs (st, m)).2.wins = m.wins) ∧
    ((bt_run cfgW 1000
        [BtEvent.step 1000 0, BtEvent.closeLongEvt "BTCUSDT" (some 110), BtEvent.step 1000 10]
        ({ positions := [("BTCUSDT", posW)], current_balance := 1000 },
         { pnl := 0, wins := 0, trades := 0, max_drawdown := 0, peak_balance := 1000 })).2.trades
        = 0 ∧
     (bt_run cfgW 1000
        [BtEvent.step 1000 0, BtEvent.closeLongEvt "BTCUSDT" (some 110), BtEvent.step 1000 10]
        ({ positions := [("BTCUSDT", posW)], current_balance := 1000 },
         { pnl := 0, wins := 0, trades := 0, max_drawdown := 0, peak_balance := 1000 })).2.wins
        = 0) := by
  constructor
  · intro cfg b evs
    induction evs with
    | nil => intro st m; exact ⟨rfl, rfl⟩
    | cons ev evs ih =>
      intro st m
      cases ev with
      | step bal pnl => exact ih st (metrics_step_update b bal pnl m)
      | closeLongEvt sym price => exact ih _ m
  · constructor <;> rfl

/-- C10: `get_position_size` is total and never divides by zero: method
`flat` with a zero (or defaulted/absent) price returns 0 instead of
computing `value / price`, and any method other than `percent`/`flat`
returns 0. -/
theorem get_position_size_total :
    (∀ (b : ℚ) (pos_pnl : String → ℚ) (v : ℚ) (sym : Option String),
      get_position_size b pos_pnl "flat" v sym 0 = 0) ∧
    (∀ (b : ℚ) (pos_pnl : String → ℚ) (m : String) (v : ℚ) (sym : Option String) (p : ℚ),
      m ≠ "percent" → m ≠ "flat" → get_position_size b pos_pnl m v sym p = 0) := by
  constructor
  · intro b pos_pnl v sym
    unfold get_position_size
    rw [if_neg (by decide), if_pos rfl, if_pos rfl]
  · intro b pos_pnl m v sym p hm1 hm2
    unfold get_position_size
    rw [if_neg hm1, if_neg hm2]

/-- Witness for `get_position_size_total` at method `"atr"` and a flat call
with zero price. -/
theorem get_position_size_total_witness :
    get_position_size 1000 (fun _ => 0) "flat" 5 (some "BTCUSDT") 0 = 0 ∧
    get_position_size 1000 (fun _ => 0) "atr" 5 none 7 = 0 :=
  ⟨get_position_size_total.1 1000 (fun _ => 0) 5 (some "BTCUSDT"),
   get_position_size_total.2 1000 (fun _ => 0) "atr" 5 none 7 (by decide) (by decide)⟩

/-- C1 (amended): for any arrival order of ingested candles, the stored
series stays strictly ascending by timestamp with no duplicate timestamps;
and ingesting a candle whose timestamp equals an already-stored entry's — if
it is valid and not rejected by the 3-interval staleness gate — leaves
exactly one entry for that timestamp, carrying the later-arriving values
(update-in-place of the matching entry, all other entries untouched). -/
theorem candle_series_order_and_update :
    (∀ (maxlen interval : ℕ) (dq cs : List Candle), StrictAsc dq →
      StrictAsc (cs.foldl (process_kline_candle maxlen interval) dq) ∧
      ((cs.foldl (process_kline_candle maxlen interval) dq).map Candle.timestamp).Nodup) ∧
    (∀ (maxlen interval : ℕ) (dq : List Candle) (c e lastC : Candle),
      StrictAsc dq → validate_candle c = true → dq.getLast? = some lastC →
      ¬ c.timestamp < lastC.timestamp - 3 * ((interval : ℤ) * 60 * 1000) →
      e ∈ dq → e.timestamp = c.timestamp →
      process_kline_candle maxlen interval dq c =
        dq.map fun x => if x.timestamp = c.timestamp then c else x) := by
  constructor
  · intro maxlen interval dq cs hasc
    have h := ingest_fold_strictAsc maxlen interval dq cs hasc
    exact ⟨h, h.nodup_timestamps⟩
  · intro maxlen interval dq c e lastC hasc hv hlast hfresh he hts
    exact process_kline_candle_update hasc hv hlast hfresh he hts

/-- Witness for `candle_series_order_and_update`: an out-of-order arrival
sequence folded into an empty series, and a fresh duplicate-timestamp update
on a two-entry series. -/
theorem candle_series_order_and_update_witness :
    (StrictAsc ([mkc 60000 2, mkc 0 1, mkc 60000 3].foldl (process_kline_candle 50 1) []) ∧
     (([mkc 60000 2, mkc 0 1, mkc 60000 3].foldl
        (process_kline_candle 50 1) []).map Candle.timestamp).Nodup) ∧
    process_kline_candle 50 1 [mkc 0 1, mkc 60000 1] (mkc 60000 2) =
      [mkc 0 1, mkc 60000 1].map
        (fun x => if x.timestamp = (mkc 60000 2).timestamp then mkc 60000 2 else x) :=
  ⟨candle_series_order_and_update.1 50 1 [] [mkc 60000 2, mkc 0 1, mkc 60000 3] (by decide),
   candle_series_order_and_update.2 50 1 [mkc 0 1, mkc 60000 1] (mkc 60000 2) (mkc 60000 1)
     (mkc 60000 1) (by decide) (by decide) (by decide) (by decide) (by decide) (by decide)⟩

/-- Counterexample to C1 as stated: a duplicate-timestamp candle that is
more than 3 intervals behind the latest stored timestamp is dropped by the
staleness gate of `_process_kline`, so the stored entry keeps its
earlier-arriving values — the claimed unconditional update-in-place to the
later-arriving values does not happen (the series is unchanged, and differs
from the claimed updated series). -/
theorem stale_duplicate_keeps_old_values :
    process_kline_candle 50 1 [mkc 0 1, mkc 240000 1] (mkc 0 2) = [mkc 0 1, mkc 240000 1] ∧
    [mkc 0 1, mkc 240000 1].map
        (fun x => if x.timestamp = (mkc 0 2).timestamp then mkc 0 2 else x) ≠
      [mkc 0 1, mkc 240000 1] := by
  decide

/-- C3: a candle whose timestamp is more than 3 timeframe-intervals behind
the latest stored timestamp is never inserted and never overwrites: the
live-ingestion pipeline leaves the series exactly unchanged on such input. -/
theorem stale_candle_never_stored (maxlen interval : ℕ) (dq : List Candle)
    (c lastC : Candle) (hlast : dq.getLast? = some lastC)
    (hstale : c.timestamp < lastC.timestamp - 3 * ((interval : ℤ) * 60 * 1000)) :
    process_kline_candle maxlen interval dq c = dq := by
  unfold process_kline_candle
  by_cases hv : validate_candle c = true
  · rw [if_pos hv, hlast]
    dsimp only
    rw [if_pos hstale]
  · rw [if_neg hv]

/-- Witness for `stale_candle_never_stored`: a candle four 1-minute
intervals behind the latest stored timestamp is dropped. -/
theorem stale_candle_never_stored_witness :
    [mkc 60000 1, mkc 240000 1].getLast? = some (mkc 240000 1) ∧
    (mkc 0 2).timestamp < (mkc 240000 1).timestamp - 3 * ((1 : ℤ) * 60 * 1000) ∧
    process_kline_candle 50 1 [mkc 60000 1, mkc 240000 1] (mkc 0 2) =
      [mkc 60000 1, mkc 240000 1] :=
  ⟨by decide, by decide,
   stale_candle_never_stored 50 1 [mkc 60000 1, mkc 240000 1] (mkc 0 2) (mkc 240000 1)
     (by decide) (by decide)⟩

/-- C2 (amended): the stored series length never exceeds the deque bound
after any ingestion sequence, and never exceeds the (positive) retention
bound after backfill; appending a candle newer than every stored entry to a
full series (bound at most the hard-coded 50) evicts exactly the oldest
entry and no other; but a candle needing a positional insert into a full
series is rejected with an IndexError — nothing is inserted and nothing is
evicted. -/
theorem retention_bound_and_eviction :
    (∀ (maxlen interval : ℕ) (dq cs : List Candle), dq.length ≤ maxlen →
      (cs.foldl (process_kline_candle maxlen interval) dq).length ≤ maxlen) ∧
    (∀ (source : Option ℤ → KlineResponse) (fuel limit : ℕ) (start_time : Option ℤ),
      0 < limit → (get_historical_data source fuel limit start_time).length ≤ limit) ∧
    (∀ (maxlen : ℕ) (dq : List Candle) (c : Candle),
      dq.length = maxlen → 0 < maxlen → maxlen ≤ 50 →
      (∀ e ∈ dq, e.timestamp < c.timestamp) →
      add_candle_uniquely maxlen dq c = some (dq.tail ++ [c])) ∧
    (∀ (maxlen : ℕ) (dq : List Candle) (c : Candle),
      maxlen ≤ dq.length →
      (∀ e ∈ dq, e.timestamp ≠ c.timestamp) →
      (∃ e ∈ dq, c.timestamp < e.timestamp) →
      add_candle_uniquely maxlen dq c = none) :=
  ⟨fun maxlen interval dq cs hlen => ingest_fold_length maxlen interval dq cs hlen,
   fun source fuel limit start_time hlim =>
     get_historical_data_length_le source fuel limit start_time hlim,
   fun _ _ _ hfull hpos hle hnew => add_candle_uniquely_full_append hfull hpos hle hnew,
   fun _ _ _ hfull hne hex => add_candle_uniquely_full_insert hfull hne hex⟩

/-- Witness for `retention_bound_and_eviction`: a three-candle ingest into a
bound-2 deque, a bound-1 backfill, an append-eviction on a full bound-2
deque, and a failing positional insert into a full bound-3 deque. -/
theorem retention_bound_and_eviction_witness :
    ([mkc 0 1, mkc 60000 1, mkc 120000 1].foldl
        (process_kline_candle 2 1) []).length ≤ 2 ∧
    (get_historical_data ghdW 1 1 none).length ≤ 1 ∧
    add_candle_uniquely 2 [mkc 0 1, mkc 60000 1] (mkc 120000 1) =
      some ([mkc 0 1, mkc 60000 1].tail ++ [mkc 120000 1]) ∧
    add_candle_uniquely 3 [mkc 0 1, mkc 120000 1, mkc 180000 1] (mkc 60000 1) = none :=
  ⟨retention_bound_and_eviction.1 2 1 [] [mkc 0 1, mkc 60000 1, mkc 120000 1] (by decide),
   retention_bound_and_eviction.2.1 ghdW 1 1 none (by decide),
   retention_bound_and_eviction.2.2.1 2 [mkc 0 1, mkc 60000 1] (mkc 120000 1)
     (by decide) (by decide) (by decide) (by decide),
   retention_bound_and_eviction.2.2.2 3 [mkc 0 1, mkc 120000 1, mkc 180000 1] (mkc 60000 1)
     (by decide) (by decide) (by decide)⟩

/-- Counterexample to C2 as stated: a candle that belongs strictly inside a
full series (here a bound of 3, holding timestamps 0/120000/180000, receiving
timestamp 60000, which also passes the 3-interval staleness gate) is NOT
stored with the oldest entry evicted — `deque.insert` raises IndexError, the
ingest leaves the series unchanged, and the claimed "evict oldest, keep the
new candle" result is not produced. -/
theorem full_deque_positional_insert_not_evicting :
    add_candle_uniquely 3 [mkc 0 1, mkc 120000 1, mkc 180000 1] (mkc 60000 2) = none ∧
    process_kline_candle 3 1 [mkc 0 1, mkc 120000 1, mkc 180000 1] (mkc 60000 2) =
      [mkc 0 1, mkc 120000 1, mkc 180000 1] ∧
    add_candle_uniquely 3 [mkc 0 1, mkc 120000 1, mkc 180000 1] (mkc 60000 2) ≠
      some [mkc 60000 2, mkc 120000 1, mkc 180000 1] := by
  decide

/-- Counterexample to C7 as stated: the claim quantifies over every `limit`,
but at `limit = 0` the code's `sorted_data[-limit:]` is the slice `[-0:]`,
which keeps the WHOLE deduplicated sorted series instead of truncating to
the most recent 0 entries — on a concrete one-page source the result has
two entries, not zero. -/
theorem backfill_zero_limit_not_truncated :
    get_historical_data ghdW 1 0 none = [mkc 0 1, mkc 60000 2] ∧
    (get_historical_data ghdW 1 0 none).length = 2 ∧
    ¬ (get_historical_data ghdW 1 0 none).length ≤ 0 := by
  decide
